import Mathlib

/-!
# Verification of the `olc_utils` seqlock / buffer-manager core

Shallow embedding of the Rust sources `seqlock.rs`, `buffer_manager.rs`,
`o_ptr.rs`, `optimistic_error.rs` and `lib.rs`.  A 64-bit machine word is a
`Nat` (< 2^64 where it matters); wrapping arithmetic is explicit `% 2^64`.
Bitwise operations use Lean's `&&&`, `|||`, `>>>`, `<<<` on `Nat`, which agree
with the Rust `u64` operations on in-range values.

The file is organised as: all definitions first, then lemmas and theorems.
-/

namespace OlcWord

/-! ## Definitions: constants (seqlock.rs lines 9-12) -/

/-- `COUNT_BITS` from seqlock.rs. -/
def COUNT_BITS : Nat := 10

/-- `COUNT_MASK = (1 << COUNT_BITS) - 1` from seqlock.rs. -/
def COUNT_MASK : Nat := (1 <<< COUNT_BITS) - 1

/-- `EXCLUSIVE_MASK = 1 << COUNT_BITS` from seqlock.rs. -/
def EXCLUSIVE_MASK : Nat := 1 <<< COUNT_BITS

/-- `VERSION_SHIFT = COUNT_BITS + 1` from seqlock.rs. -/
def VERSION_SHIFT : Nat := COUNT_BITS + 1

/-- Number of values of a `u64`. -/
def U64_SIZE : Nat := 2 ^ 64

/-- Bitwise complement of a `u64` value: `!m` in Rust.  For `m < 2^64` the
subtraction never borrows, so this flips every one of the 64 bits. -/
def not64 (m : Nat) : Nat := (U64_SIZE - 1) - m

/-- Mirror of `OptimisticError` from optimistic_error.rs (payload-free). -/
structure OptimisticError where
  deriving DecidableEq, Repr

instance : DecidableEq (Except OptimisticError Unit) := fun a b =>
  match a, b with
  | Except.ok u, Except.ok v => isTrue (by cases u; cases v; rfl)
  | Except.error e, Except.error e2 => isTrue (by cases e; cases e2; rfl)
  | Except.ok _, Except.error _ => isFalse (fun h => Except.noConfusion h)
  | Except.error _, Except.ok _ => isFalse (fun h => Except.noConfusion h)

namespace SeqLock

/-! ## Definitions: SeqLock word operations (seqlock.rs) -/

/-- Shared-count field of a lock word (bits 0..9, `w & COUNT_MASK`). -/
def count (w : Nat) : Nat := w &&& COUNT_MASK

/-- Exclusive-flag field of a lock word (bit 10, `w & EXCLUSIVE_MASK`). -/
def exclusiveFlag (w : Nat) : Nat := w &&& EXCLUSIVE_MASK

/-- Version field of a lock word (bits 11..63, `w >> VERSION_SHIFT`). -/
def version (w : Nat) : Nat := w >>> VERSION_SHIFT

/-- `SeqLock::unlock_exclusive` (seqlock.rs lines 133-138):
`fetch_add(EXCLUSIVE_MASK, Release)` on the word, returning
`OlcVersion { x: (fetched + EXCLUSIVE_MASK) >> VERSION_SHIFT }`.
Result: (new lock word, returned version).  The `u64` addition wraps. -/
def unlock_exclusive (w : Nat) : Nat × Nat :=
  let fetched := w
  ((fetched + EXCLUSIVE_MASK) % U64_SIZE,
    ((fetched + EXCLUSIVE_MASK) % U64_SIZE) >>> VERSION_SHIFT)

/-- `SeqLock::unlock_shared` (seqlock.rs lines 79-84):
`fetch_sub(1, Release)`, returning `OlcVersion { x: fetched >> VERSION_SHIFT }`.
Result: (new lock word, returned version).  The `u64` subtraction wraps. -/
def unlock_shared (w : Nat) : Nat × Nat :=
  let fetched := w
  ((fetched + (U64_SIZE - 1)) % U64_SIZE, fetched >>> VERSION_SHIFT)

/-- The comparison guarding the CAS in `SeqLock::lock_shared`
(seqlock.rs line 65): `x & (COUNT_MASK | EXCLUSIVE_MASK) < COUNT_MASK`. -/
def lock_shared_guard (x : Nat) : Prop :=
  x &&& (COUNT_MASK ||| EXCLUSIVE_MASK) < COUNT_MASK

instance (x : Nat) : Decidable (lock_shared_guard x) := by
  unfold lock_shared_guard
  infer_instance

/-- The value installed by the CAS in `SeqLock::lock_shared`
(seqlock.rs line 66): `x + 1` as a wrapping `u64`. -/
def lock_shared_cas_new (x : Nat) : Nat := (x + 1) % U64_SIZE

/-- `SeqLock::try_unlock_optimistic` (seqlock.rs lines 153-161):
succeeds iff `(x & !COUNT_MASK) == v.x << VERSION_SHIFT`.  The Rust shift
`v.x << VERSION_SHIFT` is a `u64` operation, hence the `% 2^64`. -/
def try_unlock_optimistic (w v : Nat) : Except OptimisticError Unit :=
  if w &&& not64 COUNT_MASK = (v <<< VERSION_SHIFT) % U64_SIZE then
    Except.ok ()
  else
    Except.error ⟨⟩

/-- `SeqLock::force_lock_exclusive` (seqlock.rs lines 124-130):
`fetch_or(EXCLUSIVE_MASK, Acquire)`, with
`debug_assert!(x & (EXCLUSIVE_MASK | COUNT_MASK) == 0)` on the fetched value;
returns the version before locking.  `none` models the assertion firing.
Result on success: (new lock word, returned version). -/
def force_lock_exclusive (w : Nat) : Option (Nat × Nat) :=
  if w &&& (EXCLUSIVE_MASK ||| COUNT_MASK) = 0 then
    some (w ||| EXCLUSIVE_MASK, w >>> VERSION_SHIFT)
  else
    none

/-- Outcome of a `lock_exclusive` call with the must-equal (`OlcVersion`)
filter: `ok v` records the observed version handed to `f.map_r`,
`err` is the filter's optimistic error (propagated by the `?`). -/
inductive LEOutcome where
  | ok (observed : Nat)
  | err
  deriving DecidableEq, Repr

/-- seqlock.rs lines 112-119: the shared-count drain loop at the end of
`lock_exclusive`, executed sequentially (no concurrent writer): the word `w`
never changes between the re-loads, so the loop exits iff the count is already
zero; `none` models spinning forever. -/
def lock_exclusive_drain (w : Nat) : Option (LEOutcome × Nat) :=
  if w &&& COUNT_MASK = 0 then some (LEOutcome.ok (version w), w) else none

mutual

/-- seqlock.rs lines 92-122: `SeqLock::lock_exclusive` with the must-equal
filter `OlcVersion { x: vf }`, run sequentially: between two atomic accesses
of the procedure itself no other thread touches the word.  `w` is the current
lock word, `fuel` bounds the number of outer loop iterations, and `none`
means the call did not return within `fuel` rounds (spinning). -/
def lock_exclusive_loop (fuel vf w : Nat) : Option (LEOutcome × Nat) :=
  match fuel with
  | 0 => none
  | fuel + 1 =>
    let x := w
    if version x ≠ vf then some (LEOutcome.err, w)
    else if x &&& EXCLUSIVE_MASK = 0 then
      lock_exclusive_after_fetch_or fuel vf x (w ||| EXCLUSIVE_MASK)
    else
      lock_exclusive_loop fuel vf w
termination_by (fuel, 0)

/-- seqlock.rs lines 99-119: the continuation of `lock_exclusive` right after
`fetch_or(EXCLUSIVE_MASK, Acquire)` returned the previous value `x`; `w` is
the lock word with the fetch-or already applied.  The branches mirror the
source: retry if the flag was already set, clear the flag
(`fetch_and(!EXCLUSIVE_MASK)`) and retry if the filter now rejects, return if
no shared holders, otherwise drain. -/
def lock_exclusive_after_fetch_or (fuel vf x w : Nat) :
    Option (LEOutcome × Nat) :=
  if x &&& EXCLUSIVE_MASK ≠ 0 then
    lock_exclusive_loop fuel vf w
  else if version x ≠ vf then
    lock_exclusive_loop fuel vf (w &&& not64 EXCLUSIVE_MASK)
  else if x &&& (EXCLUSIVE_MASK ||| COUNT_MASK) = 0 then
    some (LEOutcome.ok (version x), w)
  else
    lock_exclusive_drain w
termination_by (fuel, 1)

end

end SeqLock

/-! ## Definitions: guard destructors (buffer_manager.rs) -/

/-- What running a guard destructor does, seen from the outside. -/
inductive DropOutcome where
  | silent
  | raised
  deriving DecidableEq, Repr

/-- `impl Drop for SimpleGuardO` (buffer_manager.rs lines 237-248), as a
function of the guard's current lock word `w`, its stored snapshot `v`, and
`is_unwinding()`: run `try_unlock_optimistic`; on `Err`, raise the optimistic
failure unless already unwinding. -/
def simpleGuardO_drop (w v : Nat) (isUnwinding : Bool) : DropOutcome :=
  match SeqLock.try_unlock_optimistic w v with
  | Except.ok _ => DropOutcome.silent
  | Except.error _ =>
    if !isUnwinding then DropOutcome.raised else DropOutcome.silent

/-- `impl Drop for SimpleGuardX` (buffer_manager.rs lines 256-263): when
unwinding, `assert!(!self.written)` (its failure is modelled as `none`);
then `unlock_exclusive`.  On success returns the new lock word. -/
def simpleGuardX_drop (w : Nat) (written isUnwinding : Bool) : Option Nat :=
  if isUnwinding then
    if written then none
    else some (SeqLock.unlock_exclusive w).1
  else
    some (SeqLock.unlock_exclusive w).1

/-- `impl DerefMut for SimpleGuardX` (buffer_manager.rs lines 180-185): any
mutable deref sets the written flag. -/
def simpleGuardX_written_after_deref_mut (_written : Bool) : Bool := true

/-! ## Definitions: OPtr bounds-checked reads (o_ptr.rs) -/

/-- `OPtr::read_unaligned_nonatomic_u64` (o_ptr.rs lines 85-91) on a referent
of size `S` bytes whose byte at address `p + i` is `mem i`: the Rust bounds
check computes `offset + 8` in `usize`, which wraps modulo `2^64` in release
builds (in debug builds the overflow panics instead, with an ordinary
overflow panic rather than an optimistic failure), so the comparison made
against `S` uses the wrapped sum.  If the check passes, the 8 bytes starting
at `offset` are read (little-endian, as `read_unaligned` on the target) —
they lie outside the referent whenever the wrapped check passed spuriously;
otherwise `O::optimistic_fail()` (modelled as `none`). -/
def read_unaligned_nonatomic_u64 (S : Nat) (mem : Nat → Nat) (offset : Nat) :
    Option Nat :=
  if (offset + 8) % U64_SIZE ≤ S then
    some ((List.range 8).foldr (fun i acc => mem (offset + i) + 256 * acc) 0)
  else
    none

/-- `OPtr::read_unaligned_nonatomic_u16` (o_ptr.rs lines 77-83): as above
with 2 bytes, again with the wrapping `usize` sum `offset + 2` (the
`as usize` zero-extension does not change the value). -/
def read_unaligned_nonatomic_u16 (S : Nat) (mem : Nat → Nat) (offset : Nat) :
    Option Nat :=
  if (offset + 2) % U64_SIZE ≤ S then
    some ((List.range 2).foldr (fun i acc => mem (offset + i) + 256 * acc) 0)
  else
    none

/-! ## Definitions: the retry boundary (lib.rs, optimistic_error.rs) -/

/-- Behaviour of one invocation of the closure given to `repeat`: it either
returns a value, raises an optimistic failure, or panics with some other
payload. -/
inductive Invocation (R : Type) where
  | ok (r : R)
  | optimisticFailure
  | otherPanic
  deriving DecidableEq, Repr

/-- `UnwindOlcEh::catch` (optimistic_error.rs lines 48-63): normal completion
becomes `Ok`, a caught `OptimisticError` panic becomes `Err`, any other panic
is re-raised by `resume_unwind` (modelled as `none`). -/
def catchOlc {R : Type} : Invocation R → Option (Except OptimisticError R)
  | Invocation.ok r => some (Except.ok r)
  | Invocation.optimisticFailure => some (Except.error ⟨⟩)
  | Invocation.otherPanic => none

/-- What a `repeat` call does, seen from the caller. -/
inductive RepeatResult (R : Type) where
  | returned (r : R)
  | panicked
  deriving DecidableEq, Repr

/-- `BufferManagerExt::repeat` (lib.rs lines 48-54): loop
`if let Ok(x) = Self::OlcEH::catch(&mut f) { return x }`.  The behaviour of
the nth invocation of `f` is `f n`; the loop starts at invocation `start`.
`fuel` bounds the number of iterations (`none` = did not finish in `fuel`
rounds); a re-raised foreign panic terminates `repeat` with `panicked`. -/
def repeatOlc {R : Type} (f : Nat → Invocation R) (fuel start : Nat) :
    Option (RepeatResult R) :=
  match fuel with
  | 0 => none
  | fuel + 1 =>
    match catchOlc (f start) with
    | some (Except.ok r) => some (RepeatResult.returned r)
    | some (Except.error _) => repeatOlc f fuel (start + 1)
    | none => some RepeatResult.panicked

/-! ## Definitions: SimpleBm (buffer_manager.rs) -/

/-- State of a `SimpleBm`: the per-frame lock words and the free list.
`free_list` is a `Vec<usize>`; `Vec::pop` removes the LAST element and
`Vec::push` appends, so the list's back is the stack top. -/
structure SimpleBm where
  locks : List Nat
  free_list : List Nat
  deriving DecidableEq, Repr

/-- `SimpleBm::new(capacity)` (buffer_manager.rs lines 21-29): zeroed pages
and locks, free list `(0..capacity).collect()`. -/
def SimpleBm.new (capacity : Nat) : SimpleBm :=
  { locks := List.replicate capacity 0, free_list := List.range capacity }

/-- `SimpleBm::alloc` (buffer_manager.rs lines 45-49): pop a frame index from
the free list (`none` models the fatal `expect("out of pages")` on an empty
list), `force_lock_exclusive` its lock (`none` if that assertion fires),
return the `PageId`.  Result: (popped index, new state). -/
def SimpleBm.alloc (bm : SimpleBm) : Option (Nat × SimpleBm) :=
  match bm.free_list.getLast? with
  | none => none
  | some pid =>
    match SeqLock.force_lock_exclusive (bm.locks.getD pid 0) with
    | none => none
    | some (w2, _v) =>
      some (pid, { locks := bm.locks.set pid w2,
                   free_list := bm.free_list.dropLast })

/-- `SimpleBm::dealloc` (buffer_manager.rs lines 51-55): `unlock_exclusive`
the frame's lock, then push the index back onto the free list. -/
def SimpleBm.dealloc (bm : SimpleBm) (pid : Nat) : SimpleBm :=
  { locks := bm.locks.set pid
      (SeqLock.unlock_exclusive (bm.locks.getD pid 0)).1,
    free_list := bm.free_list ++ [pid] }

/-- `n` successive `alloc` calls (no intervening dealloc), returning the list
of popped `PageId`s in order. -/
def SimpleBm.allocList (bm : SimpleBm) : Nat → Option (List Nat × SimpleBm)
  | 0 => some ([], bm)
  | n + 1 =>
    match bm.alloc with
    | none => none
    | some (pid, bm2) =>
      match bm2.allocList n with
      | none => none
      | some (pids, bm3) => some (pid :: pids, bm3)

/-! ## Lemmas: numeric values of the constants -/

theorem COUNT_MASK_eq : COUNT_MASK = 1023 := rfl

theorem EXCLUSIVE_MASK_eq : EXCLUSIVE_MASK = 1024 := rfl

theorem VERSION_SHIFT_eq : VERSION_SHIFT = 11 := rfl

/-! ## Bitwise-to-arithmetic bridge lemmas -/

/-- Disjoint `|||` is `+`.  Proved by recursion on binary digits. -/
theorem lor_eq_add_of_and_eq_zero (m n : Nat) (h : m &&& n = 0) :
    m ||| n = m + n := by
  induction m using Nat.strong_induction_on generalizing n with
  | _ m ih =>
    match m with
    | 0 => simp [Nat.zero_or]
    | m + 1 =>
      have hd : (m + 1) / 2 &&& n / 2 = 0 := by
        rw [← Nat.and_div_two, h]
      have ihd : (m + 1) / 2 ||| n / 2 = (m + 1) / 2 + n / 2 :=
        ih ((m + 1) / 2) (by omega) (n / 2) hd
      have h2 : ¬((m + 1) % 2 = 1 ∧ n % 2 = 1) := by
        intro hc
        have := Nat.and_mod_two_eq_one.mpr hc
        rw [h] at this
        simp at this
      have hor2 : ((m + 1) ||| n) % 2 = (m + 1) % 2 + n % 2 := by
        rcases Nat.mod_two_eq_zero_or_one (m + 1) with h1 | h1 <;>
          rcases Nat.mod_two_eq_zero_or_one n with h3 | h3
        · have : ¬(((m + 1) ||| n) % 2 = 1) := by
            rw [Nat.or_mod_two_eq_one]; omega
          omega
        · have : ((m + 1) ||| n) % 2 = 1 := by
            rw [Nat.or_mod_two_eq_one]; omega
          omega
        · have : ((m + 1) ||| n) % 2 = 1 := by
            rw [Nat.or_mod_two_eq_one]; omega
          omega
        · exact absurd ⟨h1, h3⟩ h2
      have hdiv : ((m + 1) ||| n) / 2 = (m + 1) / 2 + n / 2 := by
        rw [Nat.or_div_two, ihd]
      omega

/-- `w &&& COUNT_MASK` extracts the low 10 bits. -/
theorem and_COUNT_MASK (w : Nat) : w &&& COUNT_MASK = w % 1024 := by
  have := Nat.and_pow_two_sub_one_eq_mod w 10
  norm_num at this
  simpa [COUNT_MASK_eq] using this

/-- `w &&& (COUNT_MASK | EXCLUSIVE_MASK)` extracts the low 11 bits. -/
theorem and_low11 (w : Nat) : w &&& 2047 = w % 2048 := by
  have := Nat.and_pow_two_sub_one_eq_mod w 11
  norm_num at this
  exact this

theorem COUNT_or_EXCLUSIVE : COUNT_MASK ||| EXCLUSIVE_MASK = 2047 := by decide

theorem EXCLUSIVE_or_COUNT : EXCLUSIVE_MASK ||| COUNT_MASK = 2047 := by decide

/-- `w &&& EXCLUSIVE_MASK` extracts bit 10. -/
theorem and_EXCLUSIVE_MASK (w : Nat) :
    w &&& EXCLUSIVE_MASK = w / 1024 % 2 * 1024 := by
  have h2 : EXCLUSIVE_MASK = 2 ^ 10 := by decide
  rw [h2, Nat.and_two_pow]
  rw [Nat.testBit_to_div_mod]
  have h1024 : (2 : Nat) ^ 10 = 1024 := by norm_num
  rw [h1024]
  rcases Nat.mod_two_eq_zero_or_one (w / 1024) with h | h <;> simp [h]

/-- If two masks share no bits, conjunctions of `w` with them share no bits. -/
theorem and_and_disjoint (w m₁ m₂ : Nat) (h : m₁ &&& m₂ = 0) :
    (w &&& m₁) &&& (w &&& m₂) = 0 := by
  apply Nat.eq_of_testBit_eq
  intro i
  have hb : (m₁ &&& m₂).testBit i = false := by rw [h]; simp
  rw [Nat.testBit_and] at hb
  simp only [Nat.testBit_and, Nat.zero_testBit]
  cases hw : w.testBit i <;> cases h1 : m₁.testBit i <;>
    cases h2 : m₂.testBit i <;> simp_all

/-- Literal form of `and_COUNT_MASK`. -/
theorem and_1023 (w : Nat) : w &&& 1023 = w % 1024 := by
  have h := and_COUNT_MASK w
  rwa [COUNT_MASK_eq] at h

/-- Literal form of `and_EXCLUSIVE_MASK`. -/
theorem and_1024 (w : Nat) : w &&& 1024 = w / 1024 % 2 * 1024 := by
  have h := and_EXCLUSIVE_MASK w
  rwa [EXCLUSIVE_MASK_eq] at h

/-- `w >>> VERSION_SHIFT` is division by 2048. -/
theorem shiftRight_VERSION (w : Nat) : w >>> VERSION_SHIFT = w / 2048 := by
  rw [VERSION_SHIFT_eq, Nat.shiftRight_eq_div_pow]

/-- `v <<< VERSION_SHIFT` is multiplication by 2048. -/
theorem shiftLeft_VERSION (v : Nat) : v <<< VERSION_SHIFT = v * 2048 := by
  rw [VERSION_SHIFT_eq, Nat.shiftLeft_eq]

/-- Setting a clear bit 10 adds 1024. -/
theorem or_EXCLUSIVE_of_clear (w : Nat) (h : w / 1024 % 2 = 0) :
    w ||| EXCLUSIVE_MASK = w + 1024 := by
  have hz : w &&& EXCLUSIVE_MASK = 0 := by
    rw [and_EXCLUSIVE_MASK, h]
  have := lor_eq_add_of_and_eq_zero w EXCLUSIVE_MASK hz
  simpa [EXCLUSIVE_MASK_eq] using this

/-- `w &&& !COUNT_MASK` clears the count field (for an in-range word). -/
theorem and_not_COUNT (w : Nat) (hw : w < U64_SIZE) :
    w &&& not64 COUNT_MASK = w / 1024 * 1024 := by
  have hmask : not64 COUNT_MASK = 2 ^ 64 - 2 ^ 10 := by decide
  have hdis : (2 ^ 64 - 2 ^ 10 : Nat) &&& COUNT_MASK = 0 := by
    have h1 : ((2 ^ 64 - 2 ^ 10 : Nat)) &&& COUNT_MASK =
        (2 ^ 64 - 2 ^ 10 : Nat) % 1024 := and_COUNT_MASK _
    rw [h1]
    norm_num
  have hsplit : (2 ^ 64 - 2 ^ 10 : Nat) ||| COUNT_MASK = 2 ^ 64 - 1 := by
    rw [lor_eq_add_of_and_eq_zero _ _ hdis, COUNT_MASK_eq]
    norm_num
  have hw64 : w &&& (2 ^ 64 - 1) = w := by
    have h := Nat.and_pow_two_sub_one_eq_mod w 64
    rw [h]
    exact Nat.mod_eq_of_lt hw
  have hdistr : w &&& ((2 ^ 64 - 2 ^ 10 : Nat) ||| COUNT_MASK) =
      (w &&& (2 ^ 64 - 2 ^ 10)) ||| (w &&& COUNT_MASK) :=
    Nat.and_or_distrib_left _ _ _
  rw [hsplit, hw64] at hdistr
  have hdj : (w &&& (2 ^ 64 - 2 ^ 10)) &&& (w &&& COUNT_MASK) = 0 :=
    and_and_disjoint w _ _ hdis
  have hadd : w = (w &&& (2 ^ 64 - 2 ^ 10)) + (w &&& COUNT_MASK) := by
    rw [← lor_eq_add_of_and_eq_zero _ _ hdj, ← hdistr]
  rw [and_COUNT_MASK] at hadd
  rw [hmask]
  omega

/-- `w &&& !EXCLUSIVE_MASK` clears bit 10 (for an in-range word). -/
theorem and_not_EXCLUSIVE (w : Nat) (hw : w < U64_SIZE) :
    w &&& not64 EXCLUSIVE_MASK = w - w / 1024 % 2 * 1024 := by
  have hmask : not64 EXCLUSIVE_MASK = 2 ^ 64 - 1 - 2 ^ 10 := by decide
  have hdis : (2 ^ 64 - 1 - 2 ^ 10 : Nat) &&& EXCLUSIVE_MASK = 0 := by
    rw [and_EXCLUSIVE_MASK]
    norm_num
  have hsplit : (2 ^ 64 - 1 - 2 ^ 10 : Nat) ||| EXCLUSIVE_MASK = 2 ^ 64 - 1 := by
    rw [lor_eq_add_of_and_eq_zero _ _ hdis, EXCLUSIVE_MASK_eq]
    norm_num
  have hw64 : w &&& (2 ^ 64 - 1) = w := by
    have h := Nat.and_pow_two_sub_one_eq_mod w 64
    rw [h]
    exact Nat.mod_eq_of_lt hw
  have hdistr : w &&& ((2 ^ 64 - 1 - 2 ^ 10 : Nat) ||| EXCLUSIVE_MASK) =
      (w &&& (2 ^ 64 - 1 - 2 ^ 10)) ||| (w &&& EXCLUSIVE_MASK) :=
    Nat.and_or_distrib_left _ _ _
  rw [hsplit, hw64] at hdistr
  have hdj : (w &&& (2 ^ 64 - 1 - 2 ^ 10)) &&& (w &&& EXCLUSIVE_MASK) = 0 :=
    and_and_disjoint w _ _ hdis
  have hadd : w = (w &&& (2 ^ 64 - 1 - 2 ^ 10)) + (w &&& EXCLUSIVE_MASK) := by
    rw [← lor_eq_add_of_and_eq_zero _ _ hdj, ← hdistr]
  rw [and_EXCLUSIVE_MASK] at hadd
  rw [hmask]
  omega

namespace SeqLock

theorem try_unlock_optimistic_ok_iff (w v : Nat) :
    try_unlock_optimistic w v = Except.ok () ↔
      w &&& not64 COUNT_MASK = (v <<< VERSION_SHIFT) % U64_SIZE := by
  unfold try_unlock_optimistic
  split <;> simp_all

end SeqLock

/-- Two `Except OptimisticError Unit` values agreeing on success agree. -/
theorem except_unit_ext (a b : Except OptimisticError Unit)
    (h : a = Except.ok () ↔ b = Except.ok ()) : a = b := by
  cases a with
  | ok u =>
    cases u
    cases b with
    | ok u2 => cases u2; rfl
    | error e2 => simp_all
  | error e =>
    cases e
    cases b with
    | ok u2 => cases u2; simp_all
    | error e2 => cases e2; rfl

/-- If `try_unlock_optimistic` does not succeed it returns the optimistic
error. -/
theorem try_unlock_optimistic_not_ok (w v : Nat)
    (h : SeqLock.try_unlock_optimistic w v ≠ Except.ok ()) :
    SeqLock.try_unlock_optimistic w v = Except.error ⟨⟩ := by
  unfold SeqLock.try_unlock_optimistic at h ⊢
  by_cases hc : w &&& not64 COUNT_MASK = (v <<< VERSION_SHIFT) % U64_SIZE
  · rw [if_pos hc] at h
    simp at h
  · rw [if_neg hc]

/-! ## Claim theorems -/

/-- Field-level effect of `unlock_exclusive` on a word with the exclusive
flag set: flag cleared, version field incremented by one (wrapping inside the
53-bit field), count unchanged, and the returned version is the new one. -/
theorem unlock_exclusive_fields (w : Nat) (hw : w < U64_SIZE)
    (hex : SeqLock.exclusiveFlag w ≠ 0) :
    SeqLock.exclusiveFlag (SeqLock.unlock_exclusive w).1 = 0 ∧
    SeqLock.version (SeqLock.unlock_exclusive w).1 =
      (SeqLock.version w + 1) % 2 ^ 53 ∧
    SeqLock.count (SeqLock.unlock_exclusive w).1 = SeqLock.count w ∧
    (SeqLock.unlock_exclusive w).2 =
      SeqLock.version (SeqLock.unlock_exclusive w).1 := by
  have hw2 : w < 2 ^ 64 := hw
  have h1 : (SeqLock.unlock_exclusive w).1 = (w + 1024) % 2 ^ 64 := rfl
  have h2 : (SeqLock.unlock_exclusive w).2 =
      ((w + 1024) % 2 ^ 64) >>> VERSION_SHIFT := rfl
  rw [SeqLock.exclusiveFlag, and_EXCLUSIVE_MASK] at hex
  simp only [h1, h2, SeqLock.exclusiveFlag, SeqLock.version, SeqLock.count,
    and_EXCLUSIVE_MASK, and_COUNT_MASK, shiftRight_VERSION]
  have hp64 : (2 : Nat) ^ 64 = 18446744073709551616 := by norm_num
  have hp53 : (2 : Nat) ^ 53 = 9007199254740992 := by norm_num
  rw [hp64] at hw2 ⊢
  rw [hp53]
  refine ⟨by omega, by omega, by omega, ?_⟩
  simp

/-- C1: for every 64-bit lock word with the exclusive flag (bit 10) set,
`unlock_exclusive` — a single addition of `EXCLUSIVE_MASK` modulo `2^64` —
clears the exclusive flag, increments the 53-bit version field by exactly one
(wrapping inside the field), leaves the shared-count field unchanged, and
returns the version after unlocking. -/
theorem C1_unlock_exclusive_spec (w : Nat) (hw : w < U64_SIZE)
    (hex : SeqLock.exclusiveFlag w ≠ 0) :
    SeqLock.exclusiveFlag (SeqLock.unlock_exclusive w).1 = 0 ∧
    SeqLock.version (SeqLock.unlock_exclusive w).1 =
      (SeqLock.version w + 1) % 2 ^ 53 ∧
    SeqLock.count (SeqLock.unlock_exclusive w).1 = SeqLock.count w ∧
    (SeqLock.unlock_exclusive w).2 =
      SeqLock.version (SeqLock.unlock_exclusive w).1 :=
  unlock_exclusive_fields w hw hex

/-- C1 witness: a concrete locked word (version 7, count 5, flag set). -/
theorem C1_unlock_exclusive_witness :
    SeqLock.exclusiveFlag (SeqLock.unlock_exclusive 15365).1 = 0 ∧
    SeqLock.version (SeqLock.unlock_exclusive 15365).1 =
      (SeqLock.version 15365 + 1) % 2 ^ 53 ∧
    SeqLock.count (SeqLock.unlock_exclusive 15365).1 = SeqLock.count 15365 ∧
    (SeqLock.unlock_exclusive 15365).2 =
      SeqLock.version (SeqLock.unlock_exclusive 15365).1 :=
  C1_unlock_exclusive_spec 15365 (by decide) (by decide)


/-- C2: `try_unlock_optimistic(v)` succeeds exactly when the lock word with
the count bits masked out equals the snapshot shifted into the version field,
which (for a snapshot in range of the 53-bit field) holds iff the exclusive
flag is clear and the current version equals `v`; the outcome is unchanged by
any modification of the shared-count field alone; otherwise it returns the
optimistic error. -/
theorem C2_try_unlock_optimistic_spec (w v : Nat) (hw : w < U64_SIZE)
    (hv : v < 2 ^ 53) :
    (SeqLock.try_unlock_optimistic w v = Except.ok () ↔
      w &&& not64 COUNT_MASK = (v <<< VERSION_SHIFT) % U64_SIZE) ∧
    (SeqLock.try_unlock_optimistic w v = Except.ok () ↔
      (SeqLock.exclusiveFlag w = 0 ∧ SeqLock.version w = v)) ∧
    (∀ w₂, SeqLock.version w₂ = SeqLock.version w →
      SeqLock.exclusiveFlag w₂ = SeqLock.exclusiveFlag w → w₂ < U64_SIZE →
      SeqLock.try_unlock_optimistic w₂ v = SeqLock.try_unlock_optimistic w v) ∧
    (¬(SeqLock.exclusiveFlag w = 0 ∧ SeqLock.version w = v) →
      SeqLock.try_unlock_optimistic w v = Except.error ⟨⟩) := by
  have hp64 : (2 : Nat) ^ 64 = 18446744073709551616 := by norm_num
  have hp53 : (2 : Nat) ^ 53 = 9007199254740992 := by norm_num
  have hvlt : v <<< VERSION_SHIFT % U64_SIZE = v * 2048 := by
    rw [shiftLeft_VERSION]
    have : v * 2048 < U64_SIZE := by
      have : U64_SIZE = 18446744073709551616 := by norm_num [U64_SIZE]
      rw [this]
      rw [hp53] at hv
      omega
    exact Nat.mod_eq_of_lt this
  have hok : ∀ u, u < U64_SIZE →
      (SeqLock.try_unlock_optimistic u v = Except.ok () ↔
        (SeqLock.exclusiveFlag u = 0 ∧ SeqLock.version u = v)) := by
    intro u hu
    rw [SeqLock.try_unlock_optimistic_ok_iff, hvlt, and_not_COUNT u hu,
      SeqLock.exclusiveFlag, SeqLock.version, and_EXCLUSIVE_MASK,
      shiftRight_VERSION]
    omega
  refine ⟨SeqLock.try_unlock_optimistic_ok_iff w v, hok w hw, ?_, ?_⟩
  · intro w₂ hver hflag hw₂
    apply except_unit_ext
    rw [hok w₂ hw₂, hok w hw]
    simp only [SeqLock.exclusiveFlag, SeqLock.version, and_EXCLUSIVE_MASK,
      shiftRight_VERSION] at hver hflag ⊢
    omega
  · intro hno
    apply try_unlock_optimistic_not_ok
    intro hcontra
    exact hno ((hok w hw).mp hcontra)

/-- C2 witness: word with version 6, count 17, flag clear; snapshot 6. -/
theorem C2_try_unlock_optimistic_witness :
    (SeqLock.try_unlock_optimistic 12305 6 = Except.ok () ↔
      12305 &&& not64 COUNT_MASK = (6 <<< VERSION_SHIFT) % U64_SIZE) ∧
    (SeqLock.try_unlock_optimistic 12305 6 = Except.ok () ↔
      (SeqLock.exclusiveFlag 12305 = 0 ∧ SeqLock.version 12305 = 6)) ∧
    (∀ w₂, SeqLock.version w₂ = SeqLock.version 12305 →
      SeqLock.exclusiveFlag w₂ = SeqLock.exclusiveFlag 12305 →
      w₂ < U64_SIZE →
      SeqLock.try_unlock_optimistic w₂ 6 =
        SeqLock.try_unlock_optimistic 12305 6) ∧
    (¬(SeqLock.exclusiveFlag 12305 = 0 ∧ SeqLock.version 12305 = 6) →
      SeqLock.try_unlock_optimistic 12305 6 = Except.error ⟨⟩) :=
  C2_try_unlock_optimistic_spec 12305 6 (by decide) (by decide)

/-- C4: the CAS of `lock_shared` is attempted exactly when the exclusive flag
is clear and the shared count is below `COUNT_MASK` (the code's single
combined comparison is equivalent to that conjunction); the successful CAS
increments only the count field, and `unlock_shared` (given a non-zero count)
decrements only the count field — neither touches the version or the flag. -/
theorem C4_lock_shared_spec (w : Nat) (hw : w < U64_SIZE) :
    (SeqLock.lock_shared_guard w ↔
      (SeqLock.exclusiveFlag w = 0 ∧ SeqLock.count w < COUNT_MASK)) ∧
    (SeqLock.lock_shared_guard w →
      (SeqLock.count (SeqLock.lock_shared_cas_new w) = SeqLock.count w + 1 ∧
       SeqLock.version (SeqLock.lock_shared_cas_new w) = SeqLock.version w ∧
       SeqLock.exclusiveFlag (SeqLock.lock_shared_cas_new w) =
         SeqLock.exclusiveFlag w)) ∧
    (SeqLock.count w ≠ 0 →
      (SeqLock.count (SeqLock.unlock_shared w).1 = SeqLock.count w - 1 ∧
       SeqLock.version (SeqLock.unlock_shared w).1 = SeqLock.version w ∧
       SeqLock.exclusiveFlag (SeqLock.unlock_shared w).1 =
         SeqLock.exclusiveFlag w)) := by
  have hw2 : w < 2 ^ 64 := hw
  have hcas : SeqLock.lock_shared_cas_new w = (w + 1) % 2 ^ 64 := rfl
  have hus : (SeqLock.unlock_shared w).1 = (w + (2 ^ 64 - 1)) % 2 ^ 64 := rfl
  have hguard : SeqLock.lock_shared_guard w ↔ w % 2048 < 1023 := by
    rw [SeqLock.lock_shared_guard, COUNT_or_EXCLUSIVE, and_low11,
      COUNT_MASK_eq]
  have hp64 : (2 : Nat) ^ 64 = 18446744073709551616 := by norm_num
  simp only [hcas, hus, hguard, SeqLock.count, SeqLock.version,
    SeqLock.exclusiveFlag, and_COUNT_MASK, and_EXCLUSIVE_MASK,
    shiftRight_VERSION, COUNT_MASK_eq, EXCLUSIVE_MASK_eq, and_1023, and_1024]
  rw [hp64] at hw2 ⊢
  refine ⟨by omega, fun h => ⟨by omega, by omega, by omega⟩,
    fun h => ⟨by omega, by omega, by omega⟩⟩

/-- C4 witness: word with version 9, count 3, flag clear. -/
theorem C4_lock_shared_witness :
    (SeqLock.lock_shared_guard 18435 ↔
      (SeqLock.exclusiveFlag 18435 = 0 ∧ SeqLock.count 18435 < COUNT_MASK)) ∧
    (SeqLock.lock_shared_guard 18435 →
      (SeqLock.count (SeqLock.lock_shared_cas_new 18435) =
        SeqLock.count 18435 + 1 ∧
       SeqLock.version (SeqLock.lock_shared_cas_new 18435) =
         SeqLock.version 18435 ∧
       SeqLock.exclusiveFlag (SeqLock.lock_shared_cas_new 18435) =
         SeqLock.exclusiveFlag 18435)) ∧
    (SeqLock.count 18435 ≠ 0 →
      (SeqLock.count (SeqLock.unlock_shared 18435).1 =
        SeqLock.count 18435 - 1 ∧
       SeqLock.version (SeqLock.unlock_shared 18435).1 =
         SeqLock.version 18435 ∧
       SeqLock.exclusiveFlag (SeqLock.unlock_shared 18435).1 =
         SeqLock.exclusiveFlag 18435)) :=
  C4_lock_shared_spec 18435 (by decide)


/-- C5: dropping a `GuardO` runs `try_unlock_optimistic` against its stored
snapshot; when validation fails it raises an optimistic failure iff no
optimistic unwind is already in flight, and is silent while unwinding. -/
theorem C5_guardO_drop_spec (w v : Nat) (isUnwinding : Bool) :
    (SeqLock.try_unlock_optimistic w v = Except.ok () →
      simpleGuardO_drop w v isUnwinding = DropOutcome.silent) ∧
    (SeqLock.try_unlock_optimistic w v ≠ Except.ok () → isUnwinding = false →
      simpleGuardO_drop w v isUnwinding = DropOutcome.raised) ∧
    (SeqLock.try_unlock_optimistic w v ≠ Except.ok () → isUnwinding = true →
      simpleGuardO_drop w v isUnwinding = DropOutcome.silent) := by
  refine ⟨?_, ?_, ?_⟩
  · intro hok
    unfold simpleGuardO_drop
    rw [hok]
  · intro hno hu
    have herr := try_unlock_optimistic_not_ok w v hno
    unfold simpleGuardO_drop
    rw [herr, hu]
    rfl
  · intro hno hu
    have herr := try_unlock_optimistic_not_ok w v hno
    unfold simpleGuardO_drop
    rw [herr, hu]
    rfl

/-- C5 witness: lock word 4096 (version 2, clean); snapshot 2 validates,
snapshot 3 does not. -/
theorem C5_guardO_drop_witness :
    simpleGuardO_drop 4096 2 false = DropOutcome.silent ∧
    simpleGuardO_drop 4096 3 false = DropOutcome.raised ∧
    simpleGuardO_drop 4096 3 true = DropOutcome.silent :=
  ⟨(C5_guardO_drop_spec 4096 2 false).1 (by decide),
   (C5_guardO_drop_spec 4096 3 false).2.1 (by decide) rfl,
   (C5_guardO_drop_spec 4096 3 true).2.2 (by decide) rfl⟩

/-- C6: dropping a `GuardX` while an optimistic unwind is in flight asserts
that the written flag is false (a written guard trips the assertion) and then
releases via `unlock_exclusive`; a normal drop releases unconditionally, and
the release clears the exclusive flag and bumps the version by one. -/
theorem C6_guardX_drop_spec (w : Nat) (written : Bool) (hw : w < U64_SIZE)
    (hex : SeqLock.exclusiveFlag w ≠ 0) :
    (simpleGuardX_drop w true true = none) ∧
    (simpleGuardX_drop w false true = some (SeqLock.unlock_exclusive w).1) ∧
    (simpleGuardX_drop w written false =
      some (SeqLock.unlock_exclusive w).1) ∧
    SeqLock.exclusiveFlag (SeqLock.unlock_exclusive w).1 = 0 ∧
    SeqLock.version (SeqLock.unlock_exclusive w).1 =
      (SeqLock.version w + 1) % 2 ^ 53 := by
  have hfields := unlock_exclusive_fields w hw hex
  exact ⟨rfl, rfl, rfl, hfields.1, hfields.2.1⟩

/-- C6 witness: locked word 15365 (version 7, count 5, flag set). -/
theorem C6_guardX_drop_witness :
    (simpleGuardX_drop 15365 true true = none) ∧
    (simpleGuardX_drop 15365 false true =
      some (SeqLock.unlock_exclusive 15365).1) ∧
    (simpleGuardX_drop 15365 true false =
      some (SeqLock.unlock_exclusive 15365).1) ∧
    SeqLock.exclusiveFlag (SeqLock.unlock_exclusive 15365).1 = 0 ∧
    SeqLock.version (SeqLock.unlock_exclusive 15365).1 =
      (SeqLock.version 15365 + 1) % 2 ^ 53 :=
  C6_guardX_drop_spec 15365 true (by decide) (by decide)


/-- C7 counterexample: the claim as stated is false of the program.  With a
4096-byte referent and `offset = usize::MAX = 2^64 - 1` (so `offset + 8 > S`
and `offset + 2 > S`), the wrapping `usize` sum makes the bounds check pass
spuriously: no optimistic failure is raised, and the value read comes from
bytes outside the referent (two memories that agree on every byte of the
referent give different results). -/
theorem C7_optr_read_counterexample :
    (2 ^ 64 - 1) + 8 > 4096 ∧
    read_unaligned_nonatomic_u64 4096 (fun _ => 0) (2 ^ 64 - 1) ≠ none ∧
    read_unaligned_nonatomic_u64 4096 (fun i => if i < 4096 then 0 else 9)
        (2 ^ 64 - 1) ≠
      read_unaligned_nonatomic_u64 4096 (fun _ => 0) (2 ^ 64 - 1) ∧
    (2 ^ 64 - 1) + 2 > 4096 ∧
    read_unaligned_nonatomic_u16 4096 (fun _ => 0) (2 ^ 64 - 1) ≠ none := by
  refine ⟨by norm_num, ?_, ?_, by norm_num, ?_⟩ <;> decide

/-- C7 (amended): for every byte offset whose bounds-check sum does not
overflow `usize`, `read_unaligned_nonatomic_u64` on a referent of size `S`
fails with an optimistic failure whenever `offset + 8 > S`; when
`offset + 8 ≤ S` it returns exactly the 8 raw bytes at `offset`
(little-endian), all of those byte offsets lie inside the referent, and the
result depends only on those 8 bytes; likewise
`read_unaligned_nonatomic_u16` with 2 bytes.  (`S` is a Rust `size_of`
value, hence below `2^64`.) -/
theorem C7_optr_read_spec (S offset : Nat) (mem mem₂ : Nat → Nat)
    (hS : S < U64_SIZE) :
    (offset + 8 < U64_SIZE → offset + 8 > S →
      read_unaligned_nonatomic_u64 S mem offset = none) ∧
    (offset + 8 ≤ S → read_unaligned_nonatomic_u64 S mem offset =
      some ((List.range 8).foldr
        (fun i acc => mem (offset + i) + 256 * acc) 0)) ∧
    (offset + 8 ≤ S → ∀ i, i < 8 → offset + i < S) ∧
    ((∀ i, i < 8 → mem₂ (offset + i) = mem (offset + i)) →
      read_unaligned_nonatomic_u64 S mem₂ offset =
        read_unaligned_nonatomic_u64 S mem offset) ∧
    (offset + 2 < U64_SIZE → offset + 2 > S →
      read_unaligned_nonatomic_u16 S mem offset = none) ∧
    (offset + 2 ≤ S → read_unaligned_nonatomic_u16 S mem offset =
      some ((List.range 2).foldr
        (fun i acc => mem (offset + i) + 256 * acc) 0)) ∧
    (offset + 2 ≤ S → ∀ i, i < 2 → offset + i < S) ∧
    ((∀ i, i < 2 → mem₂ (offset + i) = mem (offset + i)) →
      read_unaligned_nonatomic_u16 S mem₂ offset =
        read_unaligned_nonatomic_u16 S mem offset) := by
  have hr8 : List.range 8 = [0, 1, 2, 3, 4, 5, 6, 7] := rfl
  have hr2 : List.range 2 = [0, 1] := rfl
  refine ⟨?_, ?_, ?_, ?_, ?_, ?_, ?_, ?_⟩
  · intro hno h
    have hm : (offset + 8) % U64_SIZE = offset + 8 := Nat.mod_eq_of_lt hno
    unfold read_unaligned_nonatomic_u64
    rw [if_neg (by rw [hm]; omega)]
  · intro h
    have hm : (offset + 8) % U64_SIZE = offset + 8 :=
      Nat.mod_eq_of_lt (by omega)
    unfold read_unaligned_nonatomic_u64
    rw [if_pos (by rw [hm]; omega)]
  · intro h i hi
    omega
  · intro hagree
    unfold read_unaligned_nonatomic_u64
    rw [hr8]
    simp only [List.foldr]
    rw [hagree 0 (by omega), hagree 1 (by omega), hagree 2 (by omega),
      hagree 3 (by omega), hagree 4 (by omega), hagree 5 (by omega),
      hagree 6 (by omega), hagree 7 (by omega)]
  · intro hno h
    have hm : (offset + 2) % U64_SIZE = offset + 2 := Nat.mod_eq_of_lt hno
    unfold read_unaligned_nonatomic_u16
    rw [if_neg (by rw [hm]; omega)]
  · intro h
    have hm : (offset + 2) % U64_SIZE = offset + 2 :=
      Nat.mod_eq_of_lt (by omega)
    unfold read_unaligned_nonatomic_u16
    rw [if_pos (by rw [hm]; omega)]
  · intro h i hi
    omega
  · intro hagree
    unfold read_unaligned_nonatomic_u16
    rw [hr2]
    simp only [List.foldr]
    rw [hagree 0 (by omega), hagree 1 (by omega)]

/-- C7 witness: the spec's concrete scenario — a 4096-byte frame, `u64` read
at offset 4090 fails, at offset 4088 it returns the raw bytes; the result at
4088 ignores bytes outside the 8-byte window (the two memories differ below
offset 4088). -/
theorem C7_optr_read_witness :
    read_unaligned_nonatomic_u64 4096 (fun _ => 0) 4090 = none ∧
    read_unaligned_nonatomic_u64 4096 (fun _ => 0) 4088 =
      some ((List.range 8).foldr (fun i acc => 0 + 256 * acc) 0) ∧
    (4088 + 3 < 4096) ∧
    read_unaligned_nonatomic_u64 4096 (fun i => if i < 4088 then 7 else 0)
        4088 =
      read_unaligned_nonatomic_u64 4096 (fun _ => 0) 4088 ∧
    read_unaligned_nonatomic_u16 4096 (fun _ => 0) 4095 = none :=
  ⟨(C7_optr_read_spec 4096 4090 (fun _ => 0) (fun _ => 0) (by decide)).1
     (by decide) (by omega),
   (C7_optr_read_spec 4096 4088 (fun _ => 0) (fun _ => 0) (by decide)).2.1
     (by omega),
   ((C7_optr_read_spec 4096 4088 (fun _ => 0) (fun _ => 0)
       (by decide)).2.2.1 (by omega)) 3 (by omega),
   (C7_optr_read_spec 4096 4088 (fun _ => 0)
       (fun i => if i < 4088 then 7 else 0) (by decide)).2.2.2.1
     (fun i hi => if_neg (by omega)),
   (C7_optr_read_spec 4096 4095 (fun _ => 0) (fun _ => 0)
       (by decide)).2.2.2.2.1 (by decide) (by omega)⟩

/-- If invocations `start..k-1` all raise optimistic failures, `repeatOlc`
reaches invocation `k` (given enough fuel) and its outcome decides the
result: a value is returned as-is, a foreign panic escapes. -/
theorem repeatOlc_reaches {R : Type} (f : Nat → Invocation R) :
    ∀ (fuel start k : Nat), start ≤ k → k < start + fuel →
      (∀ j, start ≤ j → j < k → f j = Invocation.optimisticFailure) →
      (∀ r, f k = Invocation.ok r →
        repeatOlc f fuel start = some (RepeatResult.returned r)) ∧
      (f k = Invocation.otherPanic →
        repeatOlc f fuel start = some RepeatResult.panicked) := by
  intro fuel
  induction fuel with
  | zero =>
    intro start k h1 h2
    omega
  | succ fuel ih =>
    intro start k h1 h2 hpre
    by_cases hk : start = k
    · subst hk
      constructor
      · intro r hok
        unfold repeatOlc
        rw [hok]
        rfl
      · intro hp
        unfold repeatOlc
        rw [hp]
        rfl
    · have hfs : f start = Invocation.optimisticFailure :=
        hpre start (by omega) (by omega)
      have ihh := ih (start + 1) k (by omega) (by omega)
        (fun j hj1 hj2 => hpre j (by omega) hj2)
      constructor
      · intro r hok
        unfold repeatOlc
        rw [hfs]
        exact ihh.1 r hok
      · intro hp
        unfold repeatOlc
        rw [hfs]
        exact ihh.2 hp

/-- Inversion: a value returned by `repeatOlc` is the value of some
invocation that completed, with every earlier invocation (from `start`)
having raised an optimistic failure. -/
theorem repeatOlc_returned_inv {R : Type} (f : Nat → Invocation R) :
    ∀ (fuel start : Nat) (r : R),
      repeatOlc f fuel start = some (RepeatResult.returned r) →
      ∃ k, start ≤ k ∧ f k = Invocation.ok r ∧
        ∀ j, start ≤ j → j < k → f j = Invocation.optimisticFailure := by
  intro fuel
  induction fuel with
  | zero =>
    intro start r h
    simp [repeatOlc] at h
  | succ fuel ih =>
    intro start r h
    unfold repeatOlc at h
    cases hfs : f start with
    | ok r2 =>
      rw [hfs] at h
      have hrr : r2 = r := by
        simp [catchOlc] at h
        exact h
      refine ⟨start, Nat.le_refl start, by rw [hfs, hrr], ?_⟩
      intro j hj1 hj2
      omega
    | optimisticFailure =>
      rw [hfs] at h
      have h2 : repeatOlc f fuel (start + 1) =
          some (RepeatResult.returned r) := h
      obtain ⟨k, hk1, hk2, hk3⟩ := ih (start + 1) r h2
      refine ⟨k, by omega, hk2, ?_⟩
      intro j hj1 hj2
      by_cases hj : j = start
      · rw [hj]
        exact hfs
      · exact hk3 j (by omega) hj2
    | otherPanic =>
      rw [hfs] at h
      simp [catchOlc] at h

/-- C8: `repeat(f)` invokes `f` in a loop, catching optimistic failures and
re-invoking; it returns exactly the value of the first invocation that
completes without an optimistic failure (a failed invocation never
contributes the value), and a panic that is not an optimistic failure is
re-raised past the boundary. -/
theorem C8_repeat_spec {R : Type} (f : Nat → Invocation R) (k fuel : Nat)
    (r : R) (hpre : ∀ j, j < k → f j = Invocation.optimisticFailure)
    (hfuel : k < fuel) :
    (f k = Invocation.ok r →
      repeatOlc f fuel 0 = some (RepeatResult.returned r)) ∧
    (f k = Invocation.otherPanic →
      repeatOlc f fuel 0 = some RepeatResult.panicked) ∧
    (∀ r2, repeatOlc f fuel 0 = some (RepeatResult.returned r2) →
      ∃ k2, f k2 = Invocation.ok r2 ∧
        ∀ j, j < k2 → f j = Invocation.optimisticFailure) := by
  have hr := repeatOlc_reaches f fuel 0 k (by omega) (by omega)
    (fun j hj1 hj2 => hpre j hj2)
  refine ⟨fun h => hr.1 r h, fun h => hr.2 h, ?_⟩
  intro r2 h
  obtain ⟨k2, hk1, hk2, hk3⟩ := repeatOlc_returned_inv f fuel 0 r2 h
  exact ⟨k2, hk2, fun j hj => hk3 j (by omega) hj⟩

/-- C8 witness: two failures then a value; one failure then a foreign
panic. -/
theorem C8_repeat_witness :
    repeatOlc (fun n => if n < 2 then Invocation.optimisticFailure
      else Invocation.ok 42) 3 0 = some (RepeatResult.returned 42) ∧
    repeatOlc (fun n => if n < 1 then Invocation.optimisticFailure
      else (Invocation.otherPanic : Invocation Nat)) 2 0 =
      some RepeatResult.panicked :=
  ⟨(C8_repeat_spec (fun n => if n < 2 then Invocation.optimisticFailure
        else Invocation.ok 42) 2 3 42
      (fun j hj => if_pos hj) (by omega)).1 (if_neg (by omega)),
   (C8_repeat_spec (fun n => if n < 1 then Invocation.optimisticFailure
        else (Invocation.otherPanic : Invocation Nat)) 1 2 42
      (fun j hj => if_pos hj) (by omega)).2.1 (if_neg (by omega))⟩


/-- Setting and then clearing bit 10 restores a word whose bit 10 was
clear: `(x | EXCLUSIVE_MASK) & !EXCLUSIVE_MASK = x`. -/
theorem or_and_not_EXCLUSIVE (x : Nat) (hx : x < U64_SIZE)
    (hclear : x &&& EXCLUSIVE_MASK = 0) :
    (x ||| EXCLUSIVE_MASK) &&& not64 EXCLUSIVE_MASK = x := by
  have hb : x / 1024 % 2 = 0 := by
    rw [and_EXCLUSIVE_MASK] at hclear
    omega
  rw [or_EXCLUSIVE_of_clear x hb]
  have hx2 : x < 2 ^ 64 := hx
  have hlt : x + 1024 < 2 ^ 64 := by
    have hp64 : (2 : Nat) ^ 64 = 18446744073709551616 := by norm_num
    rw [hp64] at hx2 ⊢
    omega
  rw [and_not_EXCLUSIVE (x + 1024) hlt]
  omega

/-- Setting bit 10 of a word whose bit 10 is clear sets the exclusive flag
and leaves the count field unchanged. -/
theorem or_EXCLUSIVE_fields (x : Nat) (hx : x < U64_SIZE)
    (hclear : x &&& EXCLUSIVE_MASK = 0) :
    (x ||| EXCLUSIVE_MASK) &&& EXCLUSIVE_MASK ≠ 0 ∧
    (x ||| EXCLUSIVE_MASK) &&& COUNT_MASK = x &&& COUNT_MASK := by
  have hb : x / 1024 % 2 = 0 := by
    rw [and_EXCLUSIVE_MASK] at hclear
    omega
  rw [or_EXCLUSIVE_of_clear x hb, and_EXCLUSIVE_MASK, and_COUNT_MASK,
    and_COUNT_MASK]
  constructor
  · omega
  · omega

/-- `x ||| EXCLUSIVE_MASK` stays a 64-bit word. -/
theorem or_EXCLUSIVE_lt (x : Nat) (hx : x < U64_SIZE) :
    (x ||| EXCLUSIVE_MASK) < U64_SIZE := by
  have h1 : x < 2 ^ 64 := hx
  have h2 : EXCLUSIVE_MASK < 2 ^ 64 := by decide
  exact Nat.or_lt_two_pow h1 h2

/-- If the must-equal filter rejects the version observed by the fetch-or
(which found bit 10 clear and set it), the continuation clears the flag it
just set and the next loop iteration returns the filter error, with the lock
word restored to the pre-call value `x`. -/
theorem lock_exclusive_reject_restores (fuel vf x : Nat) (hx : x < U64_SIZE)
    (hclear : x &&& EXCLUSIVE_MASK = 0) (hrej : SeqLock.version x ≠ vf) :
    SeqLock.lock_exclusive_after_fetch_or (fuel + 1) vf x
      (x ||| EXCLUSIVE_MASK) = some (SeqLock.LEOutcome.err, x) := by
  unfold SeqLock.lock_exclusive_after_fetch_or
  rw [if_neg (show ¬(x &&& EXCLUSIVE_MASK ≠ 0) from fun h => h hclear),
    if_pos hrej, or_and_not_EXCLUSIVE x hx hclear]
  unfold SeqLock.lock_exclusive_loop
  rw [if_pos hrej]

/-- Any successful return of the (sequential) `lock_exclusive` loop leaves
the lock word with the exclusive flag set and the shared count zero.
`P_after` is stated for the word produced by the fetch-or. -/
theorem lock_exclusive_after_ok_fields (fuel : Nat)
    (hloop : ∀ vf w r w2, w < U64_SIZE →
      SeqLock.lock_exclusive_loop fuel vf w =
        some (SeqLock.LEOutcome.ok r, w2) →
      SeqLock.exclusiveFlag w2 ≠ 0 ∧ SeqLock.count w2 = 0) :
    ∀ vf x r w2, x < U64_SIZE → x &&& EXCLUSIVE_MASK = 0 →
      SeqLock.lock_exclusive_after_fetch_or fuel vf x (x ||| EXCLUSIVE_MASK) =
        some (SeqLock.LEOutcome.ok r, w2) →
      SeqLock.exclusiveFlag w2 ≠ 0 ∧ SeqLock.count w2 = 0 := by
  intro vf x r w2 hx hclear h
  unfold SeqLock.lock_exclusive_after_fetch_or at h
  rw [if_neg (show ¬(x &&& EXCLUSIVE_MASK ≠ 0) from fun hh => hh hclear)] at h
  by_cases hv : SeqLock.version x = vf
  · rw [if_neg (show ¬(SeqLock.version x ≠ vf) from fun hh => hh hv)] at h
    by_cases hq : x &&& (EXCLUSIVE_MASK ||| COUNT_MASK) = 0
    · rw [if_pos hq] at h
      have hinj : w2 = x ||| EXCLUSIVE_MASK := by
        simp at h
        exact h.2.symm
      have hfields := or_EXCLUSIVE_fields x hx hclear
      have hcnt : x &&& COUNT_MASK = 0 := by
        rw [EXCLUSIVE_or_COUNT, and_low11] at hq
        rw [and_COUNT_MASK]
        omega
      subst hinj
      exact ⟨hfields.1, by rw [SeqLock.count, hfields.2, hcnt]⟩
    · rw [if_neg hq] at h
      unfold SeqLock.lock_exclusive_drain at h
      by_cases hd : (x ||| EXCLUSIVE_MASK) &&& COUNT_MASK = 0
      · rw [if_pos hd] at h
        have hinj : w2 = x ||| EXCLUSIVE_MASK := by
          simp at h
          exact h.2.symm
        have hfields := or_EXCLUSIVE_fields x hx hclear
        subst hinj
        exact ⟨hfields.1, hd⟩
      · rw [if_neg hd] at h
        exact absurd h (by simp)
  · rw [if_pos hv] at h
    rw [or_and_not_EXCLUSIVE x hx hclear] at h
    exact hloop vf x r w2 hx h

/-- Successful sequential `lock_exclusive` returns with flag set, count 0. -/
theorem lock_exclusive_loop_ok_fields (fuel : Nat) :
    ∀ vf w r w2, w < U64_SIZE →
      SeqLock.lock_exclusive_loop fuel vf w =
        some (SeqLock.LEOutcome.ok r, w2) →
      SeqLock.exclusiveFlag w2 ≠ 0 ∧ SeqLock.count w2 = 0 := by
  induction fuel with
  | zero =>
    intro vf w r w2 hw h
    exact absurd h (by simp [SeqLock.lock_exclusive_loop])
  | succ fuel ih =>
    intro vf w r w2 hw h
    unfold SeqLock.lock_exclusive_loop at h
    by_cases hv : SeqLock.version w = vf
    · rw [if_neg (show ¬(SeqLock.version w ≠ vf) from fun hh => hh hv)] at h
      by_cases hc : w &&& EXCLUSIVE_MASK = 0
      · rw [if_pos hc] at h
        exact lock_exclusive_after_ok_fields fuel ih vf w r w2 hw hc h
      · rw [if_neg hc] at h
        exact ih vf w r w2 hw h
    · rw [if_pos hv] at h
      exact absurd h (by simp)


/-- C3: for `lock_exclusive` with a must-equal version filter: if the filter
rejects the version observed by the fetch-or that set the exclusive flag, the
operation clears the flag it just set and returns the filter's optimistic
error, with the lock word — hence its version, exclusive-flag and count
fields — exactly as before the call; and every successful return leaves the
lock word with the exclusive flag set and the shared count zero. -/
theorem C3_lock_exclusive_spec (fuel vf x : Nat) (hx : x < U64_SIZE)
    (hclear : SeqLock.exclusiveFlag x = 0) (hrej : SeqLock.version x ≠ vf) :
    (SeqLock.lock_exclusive_after_fetch_or (fuel + 1) vf x
        (x ||| EXCLUSIVE_MASK) = some (SeqLock.LEOutcome.err, x)) ∧
    (∀ fuel2 w r w2, w < U64_SIZE →
      SeqLock.lock_exclusive_loop fuel2 vf w =
        some (SeqLock.LEOutcome.ok r, w2) →
      SeqLock.exclusiveFlag w2 ≠ 0 ∧ SeqLock.count w2 = 0) :=
  ⟨lock_exclusive_reject_restores fuel vf x hx hclear hrej,
   fun fuel2 w r w2 hw h => lock_exclusive_loop_ok_fields fuel2 vf w r w2 hw h⟩

/-- C3 witness: word 10240 (version 5, clean) with filter version 7: the
post-fetch-or continuation fails and restores the word; a successful run
(word 14336, version 7, filter 7) ends with flag set and count zero. -/
theorem C3_lock_exclusive_witness :
    (SeqLock.lock_exclusive_after_fetch_or 2 7 10240
        (10240 ||| EXCLUSIVE_MASK) = some (SeqLock.LEOutcome.err, 10240)) ∧
    (SeqLock.exclusiveFlag 15360 ≠ 0 ∧ SeqLock.count 15360 = 0) :=
  ⟨(C3_lock_exclusive_spec 1 7 10240 (by decide) (by decide) (by decide)).1,
   (C3_lock_exclusive_spec 1 7 10240 (by decide) (by decide) (by decide)).2
     1 14336 7 15360 (by decide)
     (by
       simp only [SeqLock.lock_exclusive_loop,
         SeqLock.lock_exclusive_after_fetch_or, SeqLock.lock_exclusive_drain,
         SeqLock.version]
       decide)⟩


/-- `getD` after `set` at the written index. -/
theorem getD_set_self (l : List Nat) (i a : Nat) (h : i < l.length) :
    (l.set i a).getD i 0 = a := by
  simp [List.getD, List.getElem?_set_self, h]

/-- `getD` after `set` at a different index. -/
theorem getD_set_diff (l : List Nat) (i j a : Nat) (h : i ≠ j) :
    (l.set i a).getD j 0 = l.getD j 0 := by
  simp [List.getD, List.getElem?_set_ne h]

/-- The `force_lock_exclusive` assertion mask check in arithmetic form. -/
theorem assert_mask_iff (w : Nat) :
    w &&& (EXCLUSIVE_MASK ||| COUNT_MASK) = 0 ↔ w % 2048 = 0 := by
  rw [EXCLUSIVE_or_COUNT, and_low11]

/-- C9: with a non-empty free list, `alloc` pops the stack-top frame index
and force-acquires that frame's exclusive lock (`alloc` on an empty free list
is fatal), and `dealloc` of the result releases the exclusive lock and pushes
the same index back, so the index is again a member of the free set. -/
theorem C9_alloc_dealloc_spec (bm bme : SimpleBm) (pid : Nat)
    (hpop : bm.free_list.getLast? = some pid)
    (hpid : pid < bm.locks.length)
    (hw : bm.locks.getD pid 0 < U64_SIZE)
    (hassert : bm.locks.getD pid 0 &&& (EXCLUSIVE_MASK ||| COUNT_MASK) = 0)
    (hempty : bme.free_list = []) :
    bme.alloc = none ∧
    bm.alloc = some (pid,
      { locks := bm.locks.set pid (bm.locks.getD pid 0 ||| EXCLUSIVE_MASK),
        free_list := bm.free_list.dropLast }) ∧
    SeqLock.exclusiveFlag
      ((bm.locks.set pid
        (bm.locks.getD pid 0 ||| EXCLUSIVE_MASK)).getD pid 0) ≠ 0 ∧
    (SimpleBm.dealloc
      { locks := bm.locks.set pid (bm.locks.getD pid 0 ||| EXCLUSIVE_MASK),
        free_list := bm.free_list.dropLast } pid).free_list =
      bm.free_list.dropLast ++ [pid] ∧
    pid ∈ (SimpleBm.dealloc
      { locks := bm.locks.set pid (bm.locks.getD pid 0 ||| EXCLUSIVE_MASK),
        free_list := bm.free_list.dropLast } pid).free_list ∧
    SeqLock.exclusiveFlag ((SimpleBm.dealloc
      { locks := bm.locks.set pid (bm.locks.getD pid 0 ||| EXCLUSIVE_MASK),
        free_list := bm.free_list.dropLast } pid).locks.getD pid 0) = 0 := by
  have hclear : bm.locks.getD pid 0 &&& EXCLUSIVE_MASK = 0 := by
    rw [assert_mask_iff] at hassert
    rw [and_EXCLUSIVE_MASK]
    omega
  have hgd : (bm.locks.set pid
      (bm.locks.getD pid 0 ||| EXCLUSIVE_MASK)).getD pid 0 =
      bm.locks.getD pid 0 ||| EXCLUSIVE_MASK :=
    getD_set_self bm.locks pid _ hpid
  have hor := or_EXCLUSIVE_fields (bm.locks.getD pid 0) hw hclear
  have horlt := or_EXCLUSIVE_lt (bm.locks.getD pid 0) hw
  have hunl := unlock_exclusive_fields
    (bm.locks.getD pid 0 ||| EXCLUSIVE_MASK) horlt hor.1
  refine ⟨?_, ?_, ?_, rfl, ?_, ?_⟩
  · unfold SimpleBm.alloc
    rw [hempty]
    rfl
  · have hassert2 : bm.locks[pid]?.getD 0 &&& (EXCLUSIVE_MASK ||| COUNT_MASK) = 0 := by
      simpa [List.getD] using hassert
    simp [SimpleBm.alloc, hpop, SeqLock.force_lock_exclusive, hassert2]
  · rw [SeqLock.exclusiveFlag, hgd]
    exact hor.1
  · simp [SimpleBm.dealloc, List.mem_append]
  · show SeqLock.exclusiveFlag
      (((bm.locks.set pid (bm.locks.getD pid 0 ||| EXCLUSIVE_MASK)).set pid
        (SeqLock.unlock_exclusive
          ((bm.locks.set pid
            (bm.locks.getD pid 0 ||| EXCLUSIVE_MASK)).getD pid 0)).1).getD
        pid 0) = 0
    rw [getD_set_self _ pid _ (by rw [List.length_set]; exact hpid), hgd]
    exact hunl.1

/-- C9 witness: fresh pool of capacity 2; `alloc` pops index 1; after
`dealloc`, index 1 is back in the free list. -/
theorem C9_alloc_dealloc_witness :
    SimpleBm.alloc { locks := [], free_list := [] } = none ∧
    (SimpleBm.new 2).alloc = some (1,
      { locks := (SimpleBm.new 2).locks.set 1
          ((SimpleBm.new 2).locks.getD 1 0 ||| EXCLUSIVE_MASK),
        free_list := (SimpleBm.new 2).free_list.dropLast }) ∧
    SeqLock.exclusiveFlag
      (((SimpleBm.new 2).locks.set 1
        ((SimpleBm.new 2).locks.getD 1 0 ||| EXCLUSIVE_MASK)).getD 1 0) ≠ 0 ∧
    (SimpleBm.dealloc
      { locks := (SimpleBm.new 2).locks.set 1
          ((SimpleBm.new 2).locks.getD 1 0 ||| EXCLUSIVE_MASK),
        free_list := (SimpleBm.new 2).free_list.dropLast } 1).free_list =
      (SimpleBm.new 2).free_list.dropLast ++ [1] ∧
    1 ∈ (SimpleBm.dealloc
      { locks := (SimpleBm.new 2).locks.set 1
          ((SimpleBm.new 2).locks.getD 1 0 ||| EXCLUSIVE_MASK),
        free_list := (SimpleBm.new 2).free_list.dropLast } 1).free_list ∧
    SeqLock.exclusiveFlag ((SimpleBm.dealloc
      { locks := (SimpleBm.new 2).locks.set 1
          ((SimpleBm.new 2).locks.getD 1 0 ||| EXCLUSIVE_MASK),
        free_list := (SimpleBm.new 2).free_list.dropLast } 1).locks.getD
        1 0) = 0 :=
  C9_alloc_dealloc_spec (SimpleBm.new 2) { locks := [], free_list := [] } 1
    (by decide) (by decide) (by decide) (by decide) rfl


/-- On a pool whose free list is `0..k` and whose listed frames all pass the
`force_lock_exclusive` assertion, `k` successive allocs return
`k-1, k-2, ..., 0` in that order. -/
theorem allocList_range (k : Nat) :
    ∀ locks : List Nat,
      (∀ i, i < k → locks.getD i 0 &&& (EXCLUSIVE_MASK ||| COUNT_MASK) = 0) →
      ∃ bmF, SimpleBm.allocList ⟨locks, List.range k⟩ k =
        some ((List.range k).reverse, bmF) := by
  induction k with
  | zero =>
    intro locks h
    exact ⟨⟨locks, List.range 0⟩, rfl⟩
  | succ k ih =>
    intro locks h
    have hpop : (List.range (k + 1)).getLast? = some k := by
      rw [List.range_succ]
      exact List.getLast?_concat _
    have hassert := h k (by omega)
    have hassert2 : locks[k]?.getD 0 &&& (EXCLUSIVE_MASK ||| COUNT_MASK) = 0 := by
      simpa [List.getD] using hassert
    have halloc : SimpleBm.alloc ⟨locks, List.range (k + 1)⟩ =
        some (k, ⟨locks.set k (locks.getD k 0 ||| EXCLUSIVE_MASK),
          List.range k⟩) := by
      simp [SimpleBm.alloc, hpop, SeqLock.force_lock_exclusive, hassert2,
        List.range_succ, List.getD]
    obtain ⟨bmF, hF⟩ := ih (locks.set k (locks.getD k 0 ||| EXCLUSIVE_MASK))
      (fun i hi => by
        rw [getD_set_diff locks k i _ (by omega)]
        exact h i (by omega))
    refine ⟨bmF, ?_⟩
    unfold SimpleBm.allocList
    rw [halloc]
    simp only [hF]
    rw [List.range_succ, List.reverse_concat]

/-- C10: `SimpleBm`'s free list is a LIFO stack initialised to
`0..capacity`: on a fresh pool of capacity `n`, `n` successive allocs return
the `PageId`s `n-1, n-2, ..., 0` in that order, and after a `dealloc` the
next `alloc` returns the `PageId` just deallocated. -/
theorem C10_freelist_lifo_spec (n : Nat) (bm : SimpleBm) (pid : Nat)
    (hpid : pid < bm.locks.length)
    (hw : bm.locks.getD pid 0 < U64_SIZE)
    (hflag : SeqLock.exclusiveFlag (bm.locks.getD pid 0) ≠ 0)
    (hcount : SeqLock.count (bm.locks.getD pid 0) = 0) :
    Option.map Prod.fst ((SimpleBm.new n).allocList n) =
      some (List.range n).reverse ∧
    Option.map Prod.fst ((bm.dealloc pid).alloc) = some pid := by
  constructor
  · obtain ⟨bmF, hF⟩ := allocList_range n (List.replicate n 0)
      (fun i hi => by
        have hz : (List.replicate n 0).getD i 0 = 0 := by
          simp [List.getD]
        rw [hz]
        simp)
    rw [show SimpleBm.new n = ⟨List.replicate n 0, List.range n⟩ from rfl, hF]
    rfl
  · have hunl := unlock_exclusive_fields (bm.locks.getD pid 0) hw hflag
    have hpop2 : (bm.dealloc pid).free_list.getLast? = some pid := by
      show (bm.free_list ++ [pid]).getLast? = some pid
      exact List.getLast?_concat _
    have hgd : (bm.dealloc pid).locks.getD pid 0 =
        (SeqLock.unlock_exclusive (bm.locks.getD pid 0)).1 := by
      show ((bm.locks.set pid _).getD pid 0) = _
      exact getD_set_self _ pid _ hpid
    have hassert : (bm.dealloc pid).locks.getD pid 0 &&&
        (EXCLUSIVE_MASK ||| COUNT_MASK) = 0 := by
      rw [hgd, assert_mask_iff]
      have h1 := hunl.1
      have h2 := hunl.2.2.1
      rw [SeqLock.exclusiveFlag, and_EXCLUSIVE_MASK] at h1
      rw [SeqLock.count, SeqLock.count, and_COUNT_MASK, and_COUNT_MASK] at h2
      rw [SeqLock.count, and_COUNT_MASK] at hcount
      omega
    have hassert2 : (bm.dealloc pid).locks[pid]?.getD 0 &&&
        (EXCLUSIVE_MASK ||| COUNT_MASK) = 0 := by
      simpa [List.getD] using hassert
    simp [SimpleBm.alloc, hpop2, SeqLock.force_lock_exclusive, hassert2]

/-- C10 witness: a fresh pool of capacity 3 yields PageIds 2, 1, 0; after
deallocating frame 0 of a one-frame pool holding its lock, the next alloc
returns 0 again. -/
theorem C10_freelist_lifo_witness :
    Option.map Prod.fst ((SimpleBm.new 3).allocList 3) = some [2, 1, 0] ∧
    Option.map Prod.fst
      ((SimpleBm.dealloc { locks := [3072], free_list := [] } 0).alloc) =
      some 0 :=
  C10_freelist_lifo_spec 3 { locks := [3072], free_list := [] } 0
    (by decide) (by decide) (by decide) (by decide)

end OlcWord
